import Mathlib

/-!
Verification model of the editorjs-undo repository (src/index.ts,
class EditorUndoManager).

The class state that the claims are about is the pair of the snapshot
array `history` and the integer cursor `position` (-1 when empty), plus
the debounce coalescer flags `isSaving` and `pendingSave`.  The pure
history operations (initialize, captureSnapshot's post-save logic, undo,
redo, canUndo, canRedo, getState, trimHistory, hasChanged) are embedded
as pure functions below; the asynchronous debounce coalescer
(`debounce`, `debouncedSaver`, `handleEditorChange`) is embedded as an
explicit event-loop transition system (`loopStep`), with the JS
single-threaded cooperative model: synchronous segments between `await`
points are atomic, and the only suspension points are the awaited
`editor.save()` calls inside `captureSnapshot`.

Editor content is plain JSON data (the output of `editor.save()`), so it
is modelled by the inductive `Json` below: strings, arrays, and objects
whose field list keeps the JS insertion order, since both `JSON.stringify`
and structure-preserving clones respect that order.  Numbers, booleans
and null are further JSON atoms in reality; they play no role in any
claim and the `str` atom stands for all atoms.  `JSON.stringify` is
embedded as the executable serializer `serJson`, written to emit the
same string as the builtin on this value domain (with the quote and
backslash escapes; control-character escapes are dropped, which never
merges two distinct values).  `JSON.parse(JSON.stringify(x))` is a deep
structural copy, which on pure values is the value itself, so
`cloneBlocks` is the identity.
-/

namespace EditorUndo

/-- JSON content values produced by the host editor save operation. -/
inductive Json where
  | str (s : String)
  | arr (items : List Json)
  | obj (fields : List (String × Json))

/-- Escape of one character inside a JSON string literal, as emitted by
`JSON.stringify`: a quote or a backslash is preceded by a backslash. -/
def escChar (c : Char) : List Char :=
  if c = '"' ∨ c = '\\' then ['\\', c] else [c]

/-- Escape of a whole string body. -/
def escStr : List Char → List Char
  | [] => []
  | c :: cs => escChar c ++ escStr cs

/-- JSON string literal: quote, escaped body, quote. -/
def serStrLit (s : String) : List Char :=
  '"' :: (escStr s.data ++ ['"'])

mutual

/-- The output of `JSON.stringify` on a JSON value, as a character list. -/
def serJson : Json → List Char
  | .str s => serStrLit s
  | .arr items => '[' :: (serItems items ++ [']'])
  | .obj fields => '{' :: (serFields fields ++ ['}'])

/-- Comma-separated serialization of array elements. -/
def serItems : List Json → List Char
  | [] => []
  | v :: vs => serJson v ++ serItemsTail vs

/-- Remaining array elements, each preceded by a comma. -/
def serItemsTail : List Json → List Char
  | [] => []
  | v :: vs => ',' :: (serJson v ++ serItemsTail vs)

/-- Comma-separated serialization of object fields. -/
def serFields : List (String × Json) → List Char
  | [] => []
  | f :: fs => serField f ++ serFieldsTail fs

/-- One object field: key literal, colon, value. -/
def serField : String × Json → List Char
  | (k, v) => serStrLit k ++ (':' :: serJson v)

/-- Remaining object fields, each preceded by a comma. -/
def serFieldsTail : List (String × Json) → List Char
  | [] => []
  | f :: fs => ',' :: (serField f ++ serFieldsTail fs)

end

/-- One history entry (interface HistoryItem, src/index.ts lines 24-28). -/
structure HistoryItem where
  blocks : List Json
  caretBlockIndex : Option Int
  caretOffset : Option Int

instance : Inhabited HistoryItem := ⟨⟨[], none, none⟩⟩

/-- The observer state (interface UndoState, src/index.ts lines 17-22). -/
structure UndoState where
  position : Int
  count : Nat
  canUndo : Bool
  canRedo : Bool
deriving DecidableEq, Repr

/-- The resolved configuration fields the history logic reads
(type ResolvedUndoConfig, src/index.ts lines 40-45; the shortcut table and
the observer callback are modelled separately). -/
structure ResolvedUndoConfig where
  debounceMs : Int
  maxHistory : Int

/-- The mutable history state of an EditorUndoManager: the fields
`history` and `position` (src/index.ts lines 59-60). -/
structure ManagerState where
  history : List HistoryItem
  position : Int

/-- Deep copy via a JSON serialize-parse round trip
(cloneBlocks, src/index.ts lines 291-293).  On pure values a deep
structural copy is the value itself. -/
def cloneBlocks (blocks : List Json) : List Json :=
  blocks

/-- canUndo (src/index.ts lines 133-135): `position > 0`. -/
def canUndo (st : ManagerState) : Bool :=
  decide (st.position > 0)

/-- canRedo (src/index.ts lines 137-139):
`position >= 0 && position < history.length - 1`. -/
def canRedo (st : ManagerState) : Bool :=
  decide (st.position ≥ 0) && decide (st.position < (st.history.length : Int) - 1)

/-- getState (src/index.ts lines 141-148). -/
def getState (st : ManagerState) : UndoState :=
  ⟨st.position, st.history.length, canUndo st, canRedo st⟩

/-- Result of one pure operation on the manager: the new history state,
the list of observer notifications emitted by it (each one a `notify()`
call, src/index.ts lines 287-289), and the content handed to
`editor.render` if the operation restored content. -/
structure StepResult where
  state : ManagerState
  notified : List UndoState
  rendered : Option (List Json)

/-- JS `array.splice(start)` truncation semantics: a negative start
counts from the end and is clamped at 0; the first `start` elements are
kept. -/
def jsSpliceTrunc (l : List α) (start : Int) : List α :=
  if start < 0 then l.take (((l.length : Int) + start).toNat) else l.take start.toNat

/-- The first half of trimHistory (src/index.ts lines 277-279): if
`position` is before the tail, everything after it is removed by
`history.splice(position + 1)`. -/
def truncatedAtPosition (st : ManagerState) : List HistoryItem :=
  if st.position < (st.history.length : Int) - 1 then
    jsSpliceTrunc st.history (st.position + 1)
  else
    st.history

/-- trimHistory (src/index.ts lines 276-285): truncate the redo branch,
then, if `history.length >= maxHistory`, drop
`history.length - maxHistory + 1` entries from the front by
`history.splice(0, ...)` and reset `position = history.length - 1`. -/
def trimHistory (cfg : ResolvedUndoConfig) (st : ManagerState) : ManagerState :=
  let h1 := truncatedAtPosition st
  if (h1.length : Int) ≥ cfg.maxHistory then
    let h2 := h1.drop (((h1.length : Int) - cfg.maxHistory + 1).toNat)
    ⟨h2, (h2.length : Int) - 1⟩
  else
    ⟨h1, st.position⟩

/-- The blocks of the current snapshot with the empty-array fallback:
`this.history[this.position]?.blocks ?? []` (src/index.ts line 272).
A JS array read at a negative or out-of-range index is undefined. -/
def currentBlocks (st : ManagerState) : List Json :=
  if st.position < 0 then []
  else
    match st.history.get? st.position.toNat with
    | some item => item.blocks
    | none => []

/-- hasChanged (src/index.ts lines 271-274):
`JSON.stringify(current) !== JSON.stringify(blocks)`. -/
def hasChanged (st : ManagerState) (blocks : List Json) : Bool :=
  decide (serJson (Json.arr (currentBlocks st)) ≠ serJson (Json.arr blocks))

/-- The snapshot built by the push in captureSnapshot
(src/index.ts lines 175-179). -/
def mkHistoryItem (blocks : List Json) (caret : Option Int × Option Int) : HistoryItem :=
  ⟨cloneBlocks blocks, caret.1, caret.2⟩

/-- The push branch of captureSnapshot (src/index.ts lines 174-181):
trim, append the cloned snapshot, set `position = history.length - 1`,
notify. -/
def pushSnapshot (cfg : ResolvedUndoConfig) (st : ManagerState)
    (blocks : List Json) (caret : Option Int × Option Int) : StepResult :=
  let st1 := trimHistory cfg st
  let h := st1.history ++ [mkHistoryItem blocks caret]
  let st2 : ManagerState := ⟨h, (h.length : Int) - 1⟩
  ⟨st2, [getState st2], none⟩

/-- The post-save logic of captureSnapshot (src/index.ts lines 167-186)
applied to the blocks returned by `editor.save()`: push only when
`hasChanged` holds, otherwise do nothing and notify nobody.  The caret
read from the DOM is passed in as `caret`. -/
def captureSnapshot (cfg : ResolvedUndoConfig) (st : ManagerState)
    (blocks : List Json) (caret : Option Int × Option Int) : StepResult :=
  if hasChanged st blocks then pushSnapshot cfg st blocks caret
  else ⟨st, [], none⟩

/-- undo (src/index.ts lines 113-121): no-op unless canUndo; else
decrement `position`, render the now-current snapshot (restore clones
the blocks before rendering, line 189), notify. -/
def undo (st : ManagerState) : StepResult :=
  if canUndo st then
    let st2 : ManagerState := ⟨st.history, st.position - 1⟩
    let item := st.history.getD (st.position - 1).toNat default
    ⟨st2, [getState st2], some (cloneBlocks item.blocks)⟩
  else
    ⟨st, [], none⟩

/-- redo (src/index.ts lines 123-131): symmetric to undo. -/
def redo (st : ManagerState) : StepResult :=
  if canRedo st then
    let st2 : ManagerState := ⟨st.history, st.position + 1⟩
    let item := st.history.getD (st.position + 1).toNat default
    ⟨st2, [getState st2], some (cloneBlocks item.blocks)⟩
  else
    ⟨st, [], none⟩

/-- The accepted shapes of the argument of initialize
(src/index.ts line 93): a raw block array, or an object that may carry a
`blocks` array (OutputData or a partial wrapper). -/
inductive InitialData where
  | blockArr (blocks : List Json)
  | wrapped (blocks : Option (List Json))

/-- extractBlocks (src/index.ts lines 366-376). -/
def extractBlocks : InitialData → List Json
  | .blockArr bs => bs
  | .wrapped (some bs) => bs
  | .wrapped none => []

/-- initialize (src/index.ts lines 93-103): clear the history, push one
snapshot of the given content with no caret, set `position = 0`, notify.
The result does not depend on the prior state, so the prior state is not
a parameter. -/
def initHistory (d : InitialData) : StepResult :=
  let st2 : ManagerState := ⟨[⟨cloneBlocks (extractBlocks d), none, none⟩], 0⟩
  ⟨st2, [getState st2], none⟩

/-- A sequence of pushes: fold pushSnapshot over a list of capture
inputs (blocks and caret of each push). -/
def pushMany (cfg : ResolvedUndoConfig) (st : ManagerState) :
    List (List Json × (Option Int × Option Int)) → ManagerState
  | [] => st
  | (b, c) :: rest => pushMany cfg (pushSnapshot cfg st b c).state rest

/-- Accumulator pass of the JS `string.split('+')`: split at every
separator, keeping empty segments. -/
def jsSplitPlusAux : List Char → List Char → List (List Char)
  | [], acc => [acc.reverse]
  | c :: cs, acc =>
    if c = '+' then acc.reverse :: jsSplitPlusAux cs []
    else jsSplitPlusAux cs (c :: acc)

/-- JS `string.split('+')` (src/index.ts line 300). -/
def jsSplitPlus (s : String) : List String :=
  (jsSplitPlusAux s.data []).map (fun l => ⟨l⟩)

/-- JS `string.toLowerCase()` on the identifier-like shortcut tokens and
key names. -/
def jsToLower (s : String) : String :=
  ⟨s.data.map Char.toLower⟩

/-- JS `string.trim()`: strip leading and trailing whitespace. -/
def jsTrim (s : String) : String :=
  ⟨((s.data.dropWhile Char.isWhitespace).reverse.dropWhile Char.isWhitespace).reverse⟩

/-- A keyboard event as read by the shortcut matcher: the key string and
the four modifier flags. -/
structure KeyboardEvent where
  key : String
  ctrlKey : Bool
  metaKey : Bool
  altKey : Bool
  shiftKey : Bool

/-- ShortcutDefinition (src/index.ts line 3): a combination string or a
token list. -/
inductive ShortcutDefinition where
  | strDef (s : String)
  | listDef (parts : List String)

/-- The token list of a definition (src/index.ts line 300):
`Array.isArray(shortcut) ? shortcut : shortcut.split('+')`. -/
def shortcutTokens : ShortcutDefinition → List String
  | .strDef s => jsSplitPlus s
  | .listDef l => l

/-- matchesShortcut (src/index.ts lines 299-346): normalize the tokens
by trim and lowercase, pop the last token as the key (returning false on
a missing or empty key), read the required modifiers from the remaining
tokens, then the chain of early returns, ending with the
case-insensitive key comparison. -/
def matchesShortcut (ev : KeyboardEvent) (shortcut : ShortcutDefinition) : Bool :=
  let normalized := (shortcutTokens shortcut).map (fun p => jsToLower (jsTrim p))
  match normalized.getLast? with
  | none => false
  | some key =>
    if key = "" then false
    else
      let mods := normalized.dropLast
      let requiresCtrl := mods.contains "ctrl" || mods.contains "control"
      let requiresMeta := mods.contains "cmd" || mods.contains "meta"
      let requiresAlt := mods.contains "alt"
      let requiresShift := mods.contains "shift"
      if requiresCtrl && !ev.ctrlKey then false
      else if requiresMeta && !ev.metaKey then false
      else if requiresAlt && !ev.altKey then false
      else if requiresShift && !ev.shiftKey then false
      else if !requiresCtrl && ev.ctrlKey then false
      else if !requiresMeta && ev.metaKey then false
      else if !requiresAlt && ev.altKey then false
      else if !requiresShift && ev.shiftKey then false
      else jsToLower ev.key == key

/-- Modelled from the claim wording of C7: the shortcut matches iff the
exact modifier set required by the definition is pressed and the event
key equals the definition's final key token case-insensitively (the
token as written, lowercased for the comparison; modifiers read from the
lowercased leading tokens). -/
def claimMatchesShortcut (ev : KeyboardEvent) (shortcut : ShortcutDefinition) : Bool :=
  match (shortcutTokens shortcut).getLast? with
  | none => false
  | some keyTok =>
    let mods := (shortcutTokens shortcut).dropLast.map jsToLower
    let requiresCtrl := mods.contains "ctrl" || mods.contains "control"
    let requiresMeta := mods.contains "cmd" || mods.contains "meta"
    let requiresAlt := mods.contains "alt"
    let requiresShift := mods.contains "shift"
    (requiresCtrl == ev.ctrlKey) && (requiresMeta == ev.metaKey) &&
      (requiresAlt == ev.altKey) && (requiresShift == ev.shiftKey) &&
      (jsToLower ev.key == jsToLower keyTok)

/-- The amended matching predicate for C7: exact modifier set, and the
event key equals the trimmed, lowercased final token, which must be
non-empty. -/
def amendedMatchesShortcut (ev : KeyboardEvent) (shortcut : ShortcutDefinition) : Bool :=
  let normalized := (shortcutTokens shortcut).map (fun p => jsToLower (jsTrim p))
  match normalized.getLast? with
  | none => false
  | some key =>
    let mods := normalized.dropLast
    let requiresCtrl := mods.contains "ctrl" || mods.contains "control"
    let requiresMeta := mods.contains "cmd" || mods.contains "meta"
    let requiresAlt := mods.contains "alt"
    let requiresShift := mods.contains "shift"
    !(key == "") && (requiresCtrl == ev.ctrlKey) && (requiresMeta == ev.metaKey) &&
      (requiresAlt == ev.altKey) && (requiresShift == ev.shiftKey) &&
      (jsToLower ev.key == key)

mutual

/-- Modelled from the claim wording of C4: full structural equality that
is order-sensitive across blocks and array items but treats the key
order of an object's fields as irrelevant (each field of either side
occurs, with an equal value, in the other; JS objects have unique keys,
and equal lengths with containment one way give set equality there). -/
def structEqKO : Json → Json → Bool
  | .str a, .str b => a == b
  | .arr as, .arr bs => structEqListKO as bs
  | .obj as, .obj bs => (as.length == bs.length) && structFieldsSubKO as bs
  | _, _ => false
termination_by a b => sizeOf a + sizeOf b

/-- Pointwise, order-sensitive comparison of array items. -/
def structEqListKO : List Json → List Json → Bool
  | [], [] => true
  | a :: as, b :: bs => structEqKO a b && structEqListKO as bs
  | _, _ => false
termination_by as bs => sizeOf as + sizeOf bs

/-- Every field on the left occurs on the right. -/
def structFieldsSubKO : List (String × Json) → List (String × Json) → Bool
  | [], _ => true
  | (k, v) :: as, bs => structFieldLookupKO k v bs && structFieldsSubKO as bs
termination_by as bs => sizeOf as + sizeOf bs

/-- The right side has a field with this key and an equal value. -/
def structFieldLookupKO : String → Json → List (String × Json) → Bool
  | _, _, [] => false
  | k, v, (k2, v2) :: bs => if k == k2 then structEqKO v v2 else structFieldLookupKO k v bs
termination_by _ v bs => sizeOf v + sizeOf bs

end

/-- Coalescer phase of the debounced saver body
(src/index.ts lines 78-90): idle, or suspended at the first
`await captureSnapshot()`, or suspended at the follow-up
`await captureSnapshot()` of the pendingSave branch.  The `caller` is
the id of the `handleEditorChange` call whose timer started this body
run and whose promise resolves when the body returns. -/
inductive Phase where
  | idle
  | inflight1 (caller : Nat)
  | inflight2 (caller : Nat)
deriving DecidableEq, Repr

/-- State of the debounce coalescer event-loop model: the body phase,
the `pendingSave` and `isSaving` flags (src/index.ts lines 61, 63), the
armed debounce timer (holding the id of the `handleEditorChange` call
that armed it; arming a new one clears the previous, src/index.ts
lines 352-354), the ids of the calls whose returned promise has
resolved, the number of captureSnapshot invocations started so far, and
the history state. -/
structure LoopState where
  phase : Phase
  pendingSave : Bool
  isSaving : Bool
  armed : Option Nat
  resolved : List Nat
  captures : Nat
  mgr : ManagerState

/-- Events of the coalescer model: a `handleEditorChange()` call with a
fresh id (arming the timer), the armed timer firing (running the
debounced body up to its first suspension), and an awaited
`editor.save()` resolving with the given blocks (running the body on
from that suspension to its next suspension or its end). -/
inductive LoopEvent where
  | call (id : Nat)
  | fire
  | save (blocks : List Json)

/-- The history-state effect of one completed captureSnapshot
(src/index.ts lines 167-186) whose `editor.save()` returned `blocks`;
the caret read is DOM state, modelled as absent. -/
def captureResult (cfg : ResolvedUndoConfig) (st : ManagerState)
    (blocks : List Json) : ManagerState :=
  (captureSnapshot cfg st blocks (none, none)).state

/-- One transition of the coalescer model.  `call`: re-arm the timer,
clearing any pending one (the superseded call keeps its promise, whose
resolve is captured in the cleared callback).  `fire`: run the debounced
body (src/index.ts lines 78-90); if `isSaving` it records `pendingSave`
and returns, resolving the caller's promise at once; otherwise it starts
captureSnapshot, which sets `isSaving` (line 168) and suspends at
`editor.save()`.  `save`: resume the suspended body; after the first
capture completes (its finally clears `isSaving`, line 184), a recorded
`pendingSave` is consumed and exactly one follow-up captureSnapshot
starts in the same synchronous segment; otherwise the body returns and
the caller's promise resolves. -/
def loopStep (cfg : ResolvedUndoConfig) (s : LoopState) : LoopEvent → LoopState
  | .call id => { s with armed := some id }
  | .fire =>
    match s.armed with
    | none => s
    | some k =>
      if s.isSaving then
        { s with armed := none, pendingSave := true, resolved := k :: s.resolved }
      else
        { s with armed := none, isSaving := true, phase := .inflight1 k,
                 captures := s.captures + 1 }
  | .save blocks =>
    match s.phase with
    | .idle => s
    | .inflight1 k =>
      let mgr2 := captureResult cfg s.mgr blocks
      if s.pendingSave then
        { s with mgr := mgr2, pendingSave := false, isSaving := true,
                 phase := .inflight2 k, captures := s.captures + 1 }
      else
        { s with mgr := mgr2, isSaving := false, phase := .idle,
                 resolved := k :: s.resolved }
    | .inflight2 k =>
      { s with mgr := captureResult cfg s.mgr blocks, isSaving := false,
               phase := .idle, resolved := k :: s.resolved }

/-- Run the coalescer model over a list of events. -/
def loopRun (cfg : ResolvedUndoConfig) (s : LoopState) : List LoopEvent → LoopState
  | [] => s
  | e :: es => loopRun cfg (loopStep cfg s e) es

/-- The coalescer state right after construction. -/
def initialLoopState (mgr : ManagerState) : LoopState :=
  ⟨.idle, false, false, none, [], 0, mgr⟩

/-- The id of the call whose body run is currently suspended, if any. -/
def phaseOwner : Phase → Option Nat
  | .idle => none
  | .inflight1 k => some k
  | .inflight2 k => some k

/-- The default configuration (src/index.ts lines 69-70). -/
def cfg0 : ResolvedUndoConfig := ⟨250, 100⟩

/-- A configuration with a small history bound. -/
def cfgSmall : ResolvedUndoConfig := ⟨0, 2⟩

/-- A small history state: one empty snapshot at position 0 (the state
right after initialize with empty content). -/
def mgr0 : ManagerState := ⟨[⟨[], none, none⟩], 0⟩

/-- Concrete content used by the coalescer counterexample traces. -/
def blocksX : List Json := [Json.str "x"]

/-- Concrete content used by the coalescer counterexample traces. -/
def blocksY : List Json := [Json.str "y"]

/-- A concrete snapshot fixture. -/
def itemA : HistoryItem := ⟨[Json.str "a"], none, none⟩

/-- A concrete snapshot fixture. -/
def itemB : HistoryItem := ⟨[Json.str "b"], some 0, some 1⟩

/-- A two-snapshot state sitting at the tail: canUndo, not canRedo. -/
def stTail : ManagerState := ⟨[itemA, itemB], 1⟩

/-- A two-snapshot state sitting at the head: canRedo, not canUndo. -/
def stHead : ManagerState := ⟨[itemA, itemB], 0⟩

/-- A one-snapshot state: neither canUndo nor canRedo. -/
def stOne : ManagerState := ⟨[itemA], 0⟩

/-- The state right after construction, before initialize: empty
history, position -1. -/
def stEmpty : ManagerState := ⟨[], -1⟩

/-- A state whose current snapshot is one block with two fields in the
order a then b. -/
def stKeyOrder : ManagerState :=
  ⟨[⟨[Json.obj [("a", Json.str "1"), ("b", Json.str "2")]], none, none⟩], 0⟩

/-- The same block content with its two fields in the order b then a. -/
def candKeyOrder : List Json :=
  [Json.obj [("b", Json.str "2"), ("a", Json.str "1")]]

/-- Coalescer fixture: call 1 was made and its timer fired, so its body
is suspended at the first capture's content read. -/
def sFire1 : LoopState :=
  loopRun cfg0 (initialLoopState mgr0) [.call 1, .fire]

/-- Coalescer fixture: call 2 arrives while the first capture is in
flight, arming a new timer. -/
def sCall2 : LoopState :=
  loopStep cfg0 sFire1 (.call 2)

/-- Coalescer fixture: the timer of call 2 fires during the in-flight
capture; its body records pendingSave and returns at once. -/
def sPend : LoopState :=
  loopStep cfg0 sCall2 .fire

/-- Coalescer fixture: the first capture completes; the recorded
pendingSave starts the one follow-up capture. -/
def sChain : LoopState :=
  loopStep cfg0 sPend (.save blocksX)

/-- Coalescer fixture: call 3 arrives and its timer fires while the
follow-up capture is in flight, recording pendingSave again. -/
def sPend3 : LoopState :=
  loopRun cfg0 sChain [.call 3, .fire]

/-- Coalescer fixture: the follow-up capture completes; the body run
ends without serving the pendingSave recorded during it. -/
def sDrop : LoopState :=
  loopStep cfg0 sPend3 (.save blocksY)

/-- Coalescer fixture: call 2 re-arms the timer before call 1's timer
fired, so call 1's timer is cleared and its resolve is orphaned. -/
def sSuperseded : LoopState :=
  loopRun cfg0 (initialLoopState mgr0) [.call 1, .call 2]

/-! ## Injectivity of the JSON serializer

`JSON.stringify` output equality must coincide with structural equality
of the serialized values for the change detector to be analyzed, so we
prove that `serJson` is injective, by showing that a serialized value
followed by arbitrary residual input determines both uniquely. -/

theorem escChar_eq (c : Char) :
    escChar c = if c = '"' ∨ c = '\\' then ['\\', c] else [c] := rfl

theorem escStr_cons (c : Char) (cs : List Char) :
    escStr (c :: cs) = escChar c ++ escStr cs := rfl

/-- A quote after an escaped string body marks its end unambiguously. -/
theorem escStr_quote_unamb :
    ∀ (s1 s2 r1 r2 : List Char),
      escStr s1 ++ '"' :: r1 = escStr s2 ++ '"' :: r2 → s1 = s2 ∧ r1 = r2 := by
  intro s1
  induction s1 with
  | nil =>
    intro s2 r1 r2 h
    cases s2 with
    | nil => simpa [escStr] using h
    | cons c cs =>
      exfalso
      by_cases hc : c = '"' ∨ c = '\\'
      · rw [escStr_cons, escChar_eq, if_pos hc] at h
        simp only [escStr, List.nil_append, List.cons_append, List.append_assoc] at h
        injection h with h1 h2
        exact absurd h1 (by decide)
      · rw [escStr_cons, escChar_eq, if_neg hc] at h
        simp only [escStr, List.nil_append, List.cons_append, List.append_assoc] at h
        injection h with h1 h2
        exact hc (Or.inl h1.symm)
  | cons c1 cs1 ih =>
    intro s2 r1 r2 h
    cases s2 with
    | nil =>
      exfalso
      by_cases hc : c1 = '"' ∨ c1 = '\\'
      · rw [escStr_cons, escChar_eq, if_pos hc] at h
        simp only [escStr, List.nil_append, List.cons_append, List.append_assoc] at h
        injection h with h1 h2
        exact absurd h1 (by decide)
      · rw [escStr_cons, escChar_eq, if_neg hc] at h
        simp only [escStr, List.nil_append, List.cons_append, List.append_assoc] at h
        injection h with h1 h2
        exact hc (Or.inl h1)
    | cons c2 cs2 =>
      rw [escStr_cons, escStr_cons, escChar_eq, escChar_eq] at h
      by_cases hc1 : c1 = '"' ∨ c1 = '\\' <;> by_cases hc2 : c2 = '"' ∨ c2 = '\\'
      · rw [if_pos hc1, if_pos hc2] at h
        simp only [List.cons_append, List.append_assoc] at h
        injection h with h1 h2
        injection h2 with h3 h4
        obtain ⟨hs, hr⟩ := ih cs2 r1 r2 h4
        exact ⟨by rw [h3, hs], hr⟩
      · exfalso
        rw [if_pos hc1, if_neg hc2] at h
        simp only [List.cons_append, List.append_assoc] at h
        injection h with h1 h2
        exact hc2 (Or.inr h1.symm)
      · exfalso
        rw [if_neg hc1, if_pos hc2] at h
        simp only [List.cons_append, List.append_assoc] at h
        injection h with h1 h2
        exact hc1 (Or.inr h1)
      · rw [if_neg hc1, if_neg hc2] at h
        simp only [List.cons_append, List.append_assoc] at h
        injection h with h1 h2
        obtain ⟨hs, hr⟩ := ih cs2 r1 r2 h2
        exact ⟨by rw [h1, hs], hr⟩

/-- Every serialized value starts with a quote, a bracket or a brace. -/
theorem serJson_head (v : Json) :
    ∃ c cs, serJson v = c :: cs ∧ (c = '"' ∨ c = '[' ∨ c = '{') := by
  cases v with
  | str s => exact ⟨'"', _, rfl, Or.inl rfl⟩
  | arr l => exact ⟨'[', _, rfl, Or.inr (Or.inl rfl)⟩
  | obj l => exact ⟨'{', _, rfl, Or.inr (Or.inr rfl)⟩

/-- Every serialized object field starts with a quote. -/
theorem serField_head (f : String × Json) :
    ∃ cs, serField f = '"' :: cs := by
  obtain ⟨k, v⟩ := f
  exact ⟨_, rfl⟩

theorem serJson_append_ne_cons (v : Json) (r t : List Char) (c : Char)
    (h1 : c ≠ '"') (h2 : c ≠ '[') (h3 : c ≠ '{') :
    serJson v ++ r ≠ c :: t := by
  obtain ⟨c2, cs, hc, hor⟩ := serJson_head v
  rw [hc, List.cons_append]
  intro h
  injection h with hh _
  rcases hor with rfl | rfl | rfl
  · exact h1 hh.symm
  · exact h2 hh.symm
  · exact h3 hh.symm

theorem serField_append_ne_cons (f : String × Json) (r t : List Char) (c : Char)
    (h1 : c ≠ '"') : serField f ++ r ≠ c :: t := by
  obtain ⟨cs, hc⟩ := serField_head f
  rw [hc, List.cons_append]
  intro h
  injection h with hh _
  exact h1 hh.symm

/-- Tail of an array body followed by the closing bracket is unambiguous,
given unambiguity of the member values. -/
theorem serItemsTail_unamb :
    ∀ (l1 l2 : List Json) (r1 r2 : List Char),
      (∀ v ∈ l1, ∀ (w : Json) (a b : List Char),
        serJson v ++ a = serJson w ++ b → v = w ∧ a = b) →
      serItemsTail l1 ++ ']' :: r1 = serItemsTail l2 ++ ']' :: r2 →
      l1 = l2 ∧ r1 = r2 := by
  intro l1
  induction l1 with
  | nil =>
    intro l2 r1 r2 _ h
    cases l2 with
    | nil => simpa [serItemsTail] using h
    | cons v vs =>
      exfalso
      simp only [serItemsTail, List.nil_append, List.cons_append, List.append_assoc] at h
      injection h with hh _
      exact absurd hh (by decide)
  | cons v1 vs1 ih =>
    intro l2 r1 r2 hmem h
    cases l2 with
    | nil =>
      exfalso
      simp only [serItemsTail, List.nil_append, List.cons_append, List.append_assoc] at h
      injection h with hh _
      exact absurd hh (by decide)
    | cons v2 vs2 =>
      simp only [serItemsTail, List.cons_append, List.append_assoc] at h
      injection h with _ h2
      obtain ⟨hv, hrest⟩ := hmem v1 (List.mem_cons_self _ _) v2 _ _ h2
      obtain ⟨hl, hr⟩ := ih vs2 r1 r2 (fun w hw => hmem w (List.mem_cons_of_mem _ hw)) hrest
      exact ⟨by rw [hv, hl], hr⟩

/-- An array body followed by the closing bracket is unambiguous, given
unambiguity of the member values. -/
theorem serItems_unamb (l1 l2 : List Json) (r1 r2 : List Char)
    (hmem : ∀ v ∈ l1, ∀ (w : Json) (a b : List Char),
      serJson v ++ a = serJson w ++ b → v = w ∧ a = b)
    (h : serItems l1 ++ ']' :: r1 = serItems l2 ++ ']' :: r2) :
    l1 = l2 ∧ r1 = r2 := by
  cases l1 with
  | nil =>
    cases l2 with
    | nil => simpa [serItems] using h
    | cons v vs =>
      exfalso
      simp only [serItems, List.nil_append, List.append_assoc] at h
      exact serJson_append_ne_cons v _ _ ']' (by decide) (by decide) (by decide) h.symm
  | cons v1 vs1 =>
    cases l2 with
    | nil =>
      exfalso
      simp only [serItems, List.nil_append, List.append_assoc] at h
      exact serJson_append_ne_cons v1 _ _ ']' (by decide) (by decide) (by decide) h
    | cons v2 vs2 =>
      simp only [serItems, List.append_assoc] at h
      obtain ⟨hv, hrest⟩ := hmem v1 (List.mem_cons_self _ _) v2 _ _ h
      obtain ⟨hl, hr⟩ := serItemsTail_unamb vs1 vs2 r1 r2
        (fun w hw => hmem w (List.mem_cons_of_mem _ hw)) hrest
      exact ⟨by rw [hv, hl], hr⟩

/-- One serialized object field is unambiguous, given unambiguity of
its value. -/
theorem serField_unamb (f1 f2 : String × Json) (a b : List Char)
    (hv : ∀ (w : Json) (x y : List Char),
      serJson f1.2 ++ x = serJson w ++ y → f1.2 = w ∧ x = y)
    (h : serField f1 ++ a = serField f2 ++ b) : f1 = f2 ∧ a = b := by
  obtain ⟨k1, v1⟩ := f1
  obtain ⟨k2, v2⟩ := f2
  simp only [serField, serStrLit, List.cons_append, List.append_assoc,
    List.singleton_append] at h
  injection h with _ h2
  obtain ⟨hk, h3⟩ := escStr_quote_unamb _ _ _ _ h2
  injection h3 with _ h4
  obtain ⟨hv2, hab⟩ := hv v2 _ _ h4
  have hv3 : v1 = v2 := hv2
  exact ⟨by rw [String.ext hk, hv3], hab⟩

/-- Tail of an object body followed by the closing brace is unambiguous,
given unambiguity of the member values. -/
theorem serFieldsTail_unamb :
    ∀ (l1 l2 : List (String × Json)) (r1 r2 : List Char),
      (∀ f ∈ l1, ∀ (w : Json) (a b : List Char),
        serJson f.2 ++ a = serJson w ++ b → f.2 = w ∧ a = b) →
      serFieldsTail l1 ++ '}' :: r1 = serFieldsTail l2 ++ '}' :: r2 →
      l1 = l2 ∧ r1 = r2 := by
  intro l1
  induction l1 with
  | nil =>
    intro l2 r1 r2 _ h
    cases l2 with
    | nil => simpa [serFieldsTail] using h
    | cons f fs =>
      exfalso
      simp only [serFieldsTail, List.nil_append, List.cons_append, List.append_assoc] at h
      injection h with hh _
      exact absurd hh (by decide)
  | cons f1 fs1 ih =>
    intro l2 r1 r2 hmem h
    cases l2 with
    | nil =>
      exfalso
      simp only [serFieldsTail, List.nil_append, List.cons_append, List.append_assoc] at h
      injection h with hh _
      exact absurd hh (by decide)
    | cons f2 fs2 =>
      simp only [serFieldsTail, List.cons_append, List.append_assoc] at h
      injection h with _ h2
      obtain ⟨hf, hrest⟩ := serField_unamb f1 f2 _ _
        (hmem f1 (List.mem_cons_self _ _)) h2
      obtain ⟨hl, hr⟩ := ih fs2 r1 r2 (fun w hw => hmem w (List.mem_cons_of_mem _ hw)) hrest
      exact ⟨by rw [hf, hl], hr⟩

/-- An object body followed by the closing brace is unambiguous, given
unambiguity of the member values. -/
theorem serFields_unamb (l1 l2 : List (String × Json)) (r1 r2 : List Char)
    (hmem : ∀ f ∈ l1, ∀ (w : Json) (a b : List Char),
      serJson f.2 ++ a = serJson w ++ b → f.2 = w ∧ a = b)
    (h : serFields l1 ++ '}' :: r1 = serFields l2 ++ '}' :: r2) :
    l1 = l2 ∧ r1 = r2 := by
  cases l1 with
  | nil =>
    cases l2 with
    | nil => simpa [serFields] using h
    | cons f fs =>
      exfalso
      simp only [serFields, List.nil_append, List.append_assoc] at h
      exact serField_append_ne_cons f _ _ '}' (by decide) h.symm
  | cons f1 fs1 =>
    cases l2 with
    | nil =>
      exfalso
      simp only [serFields, List.nil_append, List.append_assoc] at h
      exact serField_append_ne_cons f1 _ _ '}' (by decide) h
    | cons f2 fs2 =>
      simp only [serFields, List.append_assoc] at h
      obtain ⟨hf, hrest⟩ := serField_unamb f1 f2 _ _
        (hmem f1 (List.mem_cons_self _ _)) h
      obtain ⟨hl, hr⟩ := serFieldsTail_unamb fs1 fs2 r1 r2
        (fun w hw => hmem w (List.mem_cons_of_mem _ hw)) hrest
      exact ⟨by rw [hf, hl], hr⟩

/-- A serialized value followed by arbitrary residual input determines
the value and the residual (strong induction on the value size). -/
theorem serJson_unamb_aux :
    ∀ (n : Nat) (v1 : Json), sizeOf v1 ≤ n → ∀ (v2 : Json) (r1 r2 : List Char),
      serJson v1 ++ r1 = serJson v2 ++ r2 → v1 = v2 ∧ r1 = r2 := by
  intro n
  induction n with
  | zero =>
    intro v1 h
    exfalso
    cases v1 <;> simp at h
  | succ n ih =>
    intro v1 hsize v2 r1 r2 heq
    cases v1 with
    | str s1 =>
      cases v2 with
      | str s2 =>
        simp only [serJson, serStrLit, List.cons_append, List.append_assoc,
          List.singleton_append] at heq
        injection heq with _ h2
        obtain ⟨hs, hr⟩ := escStr_quote_unamb _ _ _ _ h2
        exact ⟨congrArg Json.str (String.ext hs), hr⟩
      | arr l2 =>
        exfalso
        simp only [serJson, serStrLit, List.cons_append] at heq
        injection heq with h1 _
        exact absurd h1 (by decide)
      | obj l2 =>
        exfalso
        simp only [serJson, serStrLit, List.cons_append] at heq
        injection heq with h1 _
        exact absurd h1 (by decide)
    | arr l1 =>
      have hmem : ∀ v ∈ l1, ∀ (w : Json) (a b : List Char),
          serJson v ++ a = serJson w ++ b → v = w ∧ a = b := by
        intro v hv
        refine ih v ?_
        have h1 := List.sizeOf_lt_of_mem hv
        have h2 : sizeOf (Json.arr l1) = 1 + sizeOf l1 := by simp
        omega
      cases v2 with
      | str s2 =>
        exfalso
        simp only [serJson, serStrLit, List.cons_append] at heq
        injection heq with h1 _
        exact absurd h1 (by decide)
      | arr l2 =>
        simp only [serJson, List.cons_append, List.append_assoc,
          List.singleton_append] at heq
        injection heq with _ h2
        obtain ⟨hl, hr⟩ := serItems_unamb l1 l2 r1 r2 hmem h2
        exact ⟨congrArg Json.arr hl, hr⟩
      | obj l2 =>
        exfalso
        simp only [serJson, serStrLit, List.cons_append] at heq
        injection heq with h1 _
        exact absurd h1 (by decide)
    | obj l1 =>
      have hmem : ∀ f ∈ l1, ∀ (w : Json) (a b : List Char),
          serJson f.2 ++ a = serJson w ++ b → f.2 = w ∧ a = b := by
        intro f hf
        obtain ⟨k, v⟩ := f
        refine ih v ?_
        have h1 := List.sizeOf_lt_of_mem hf
        have h2 : sizeOf (Json.obj l1) = 1 + sizeOf l1 := by simp
        have h3 : sizeOf ((k, v) : String × Json) = 1 + sizeOf k + sizeOf v := by simp
        omega
      cases v2 with
      | str s2 =>
        exfalso
        simp only [serJson, serStrLit, List.cons_append] at heq
        injection heq with h1 _
        exact absurd h1 (by decide)
      | arr l2 =>
        exfalso
        simp only [serJson, serStrLit, List.cons_append] at heq
        injection heq with h1 _
        exact absurd h1 (by decide)
      | obj l2 =>
        simp only [serJson, List.cons_append, List.append_assoc,
          List.singleton_append] at heq
        injection heq with _ h2
        obtain ⟨hl, hr⟩ := serFields_unamb l1 l2 r1 r2 hmem h2
        exact ⟨congrArg Json.obj hl, hr⟩

/-- `JSON.stringify` is injective on the content value domain. -/
theorem serJson_inj {a b : Json} (h : serJson a = serJson b) : a = b := by
  have h2 : serJson a ++ [] = serJson b ++ [] := by rw [h]
  exact (serJson_unamb_aux (sizeOf a) a le_rfl b [] [] h2).1

/-! ## History stack properties -/

/-- A state whose position is its tail index has no redo available. -/
theorem canRedo_tail (h : List HistoryItem) :
    canRedo ⟨h, (h.length : Int) - 1⟩ = false := by
  simp [canRedo]

/-- trimHistory only ever drops entries from the front of the
branch-truncated history. -/
theorem trimHistory_drop (cfg : ResolvedUndoConfig) (st : ManagerState) :
    ∃ k, (trimHistory cfg st).history = (truncatedAtPosition st).drop k := by
  by_cases hge : ((truncatedAtPosition st).length : Int) ≥ cfg.maxHistory
  · refine ⟨(((truncatedAtPosition st).length : Int) - cfg.maxHistory + 1).toNat, ?_⟩
    simp only [trimHistory, if_pos hge]
  · refine ⟨0, ?_⟩
    simp only [trimHistory, if_neg hge, List.drop_zero]

/-- After trimHistory the history is strictly below the bound, so the
following push cannot exceed it. -/
theorem trimHistory_length_lt (cfg : ResolvedUndoConfig) (st : ManagerState)
    (h : (1 : Int) ≤ cfg.maxHistory) :
    ((trimHistory cfg st).history.length : Int) < cfg.maxHistory := by
  by_cases hge : ((truncatedAtPosition st).length : Int) ≥ cfg.maxHistory
  · simp only [trimHistory, if_pos hge, List.length_drop]
    omega
  · simp only [trimHistory, if_neg hge]
    omega

/-- One push keeps the history within the bound. -/
theorem pushSnapshot_length_le (cfg : ResolvedUndoConfig) (st : ManagerState)
    (blocks : List Json) (caret : Option Int × Option Int)
    (h : (1 : Int) ≤ cfg.maxHistory) :
    ((pushSnapshot cfg st blocks caret).state.history.length : Int) ≤ cfg.maxHistory := by
  have := trimHistory_length_lt cfg st h
  simp only [pushSnapshot, List.length_append, List.length_cons, List.length_nil]
  omega

/-- Any number of further pushes keeps a bounded history bounded. -/
theorem pushMany_length_le (cfg : ResolvedUndoConfig)
    (h : (1 : Int) ≤ cfg.maxHistory) :
    ∀ (ps : List (List Json × (Option Int × Option Int))) (st : ManagerState),
      ((st.history.length : Int) ≤ cfg.maxHistory) →
      ((pushMany cfg st ps).history.length : Int) ≤ cfg.maxHistory := by
  intro ps
  induction ps with
  | nil => intro st hst; simpa [pushMany] using hst
  | cons bc rest ih =>
    intro st hst
    obtain ⟨b, c⟩ := bc
    simpa [pushMany] using ih _ (pushSnapshot_length_le cfg st b c h)

/-- Claim C1: immediately after every push (the appending branch of
captureSnapshot), the position equals history.length - 1 and canRedo is
false.  This holds for a push from any prior state, hence after every
push of every operation sequence. -/
theorem c1_push_tail (cfg : ResolvedUndoConfig) (st : ManagerState)
    (blocks : List Json) (caret : Option Int × Option Int) :
    (pushSnapshot cfg st blocks caret).state.position
      = ((pushSnapshot cfg st blocks caret).state.history.length : Int) - 1 ∧
    canRedo (pushSnapshot cfg st blocks caret).state = false :=
  ⟨rfl, canRedo_tail _⟩

/-- Claim C2: with maxHistory at least 1, a push from any state leaves at
most maxHistory entries (so along any sequence of pushes the bound always
holds, restated by the last conjunct for every continuation `ps`); the
pushed entry is the last one and the current one at position
history.length - 1, and everything before it is a suffix of the
branch-truncated old history, i.e. only the oldest entries are dropped. -/
theorem c2_push_bounded (cfg : ResolvedUndoConfig) (st : ManagerState)
    (blocks : List Json) (caret : Option Int × Option Int)
    (ps : List (List Json × (Option Int × Option Int)))
    (h1max : (1 : Int) ≤ cfg.maxHistory) :
    ((pushSnapshot cfg st blocks caret).state.history.length : Int) ≤ cfg.maxHistory ∧
    (pushSnapshot cfg st blocks caret).state.position
      = ((pushSnapshot cfg st blocks caret).state.history.length : Int) - 1 ∧
    (pushSnapshot cfg st blocks caret).state.history.getLast?
      = some (mkHistoryItem blocks caret) ∧
    (pushSnapshot cfg st blocks caret).state.history.dropLast
      <:+ truncatedAtPosition st ∧
    ((pushMany cfg (pushSnapshot cfg st blocks caret).state ps).history.length : Int)
      ≤ cfg.maxHistory := by
  obtain ⟨k, hk⟩ := trimHistory_drop cfg st
  refine ⟨pushSnapshot_length_le cfg st blocks caret h1max, rfl, ?_, ?_, ?_⟩
  · exact List.getLast?_concat _
  · have hdl : (pushSnapshot cfg st blocks caret).state.history.dropLast
        = (trimHistory cfg st).history := by
      simp only [pushSnapshot]
      exact List.dropLast_concat
    rw [hdl, hk]
    exact List.drop_suffix k _
  · exact pushMany_length_le cfg h1max ps _ (pushSnapshot_length_le cfg st blocks caret h1max)

/-- Claim C3: pushing while the position is before the tail first
discards every entry after the position (the branch truncation keeps
exactly the first position + 1 entries), so the resulting history is a
suffix of those survivors plus the new snapshot at the end: no redo
branch is retained. -/
theorem c3_push_discards_redo_branch (cfg : ResolvedUndoConfig) (st : ManagerState)
    (blocks : List Json) (caret : Option Int × Option Int)
    (hpos : st.position < (st.history.length : Int) - 1)
    (hge : -1 ≤ st.position) :
    truncatedAtPosition st = st.history.take (st.position + 1).toNat ∧
    (pushSnapshot cfg st blocks caret).state.history.dropLast
      <:+ st.history.take (st.position + 1).toNat ∧
    (pushSnapshot cfg st blocks caret).state.history.getLast?
      = some (mkHistoryItem blocks caret) := by
  have htr : truncatedAtPosition st = st.history.take (st.position + 1).toNat := by
    unfold truncatedAtPosition jsSpliceTrunc
    rw [if_pos hpos, if_neg (by omega)]
  obtain ⟨k, hk⟩ := trimHistory_drop cfg st
  refine ⟨htr, ?_, List.getLast?_concat _⟩
  have hdl : (pushSnapshot cfg st blocks caret).state.history.dropLast
      = (trimHistory cfg st).history := by
    simp only [pushSnapshot]
    exact List.dropLast_concat
  rw [hdl, hk, htr]
  exact List.drop_suffix k _

/-- Claim C8: undo with nothing to undo and redo with nothing to redo
return normally with the state unchanged and nobody notified; a
successful undo or redo moves only the position and notifies exactly
once, with the state taken after the move. -/
theorem c8_invalid_navigation_noop (st : ManagerState) :
    (canUndo st = false → undo st = ⟨st, [], none⟩) ∧
    (canRedo st = false → redo st = ⟨st, [], none⟩) ∧
    (canUndo st = true →
      (undo st).state = ⟨st.history, st.position - 1⟩ ∧
      (undo st).notified = [getState (undo st).state]) ∧
    (canRedo st = true →
      (redo st).state = ⟨st.history, st.position + 1⟩ ∧
      (redo st).notified = [getState (redo st).state]) := by
  refine ⟨fun h => ?_, fun h => ?_, fun h => ?_, fun h => ?_⟩ <;>
    simp [undo, redo, h]

/-- Claim C9: from a settled state with canUndo, undo followed by redo
restores the full history state (hence getState), and the content redo
hands to the host render is exactly the pre-undo current snapshot's
blocks.  The position-in-range hypothesis is the History invariant
`position < length` of every reachable state. -/
theorem c9_undo_redo_roundtrip (st : ManagerState) (hcu : canUndo st = true)
    (hpos : st.position < (st.history.length : Int)) :
    (redo (undo st).state).state = st ∧
    getState (redo (undo st).state).state = getState st ∧
    (redo (undo st).state).rendered
      = some (st.history.getD st.position.toNat default).blocks := by
  obtain ⟨hist, pos⟩ := st
  have hgt : (0 : Int) < pos := by simpa [canUndo] using hcu
  have hundo : (undo ⟨hist, pos⟩).state = ⟨hist, pos - 1⟩ := by
    simp [undo, hcu]
  have hcr : canRedo ⟨hist, pos - 1⟩ = true := by
    simp only [canRedo, Bool.and_eq_true, decide_eq_true_eq]
    simp only [ManagerState.position, ManagerState.history] at hpos ⊢
    omega
  rw [hundo]
  have harith : pos - 1 + 1 = pos := by omega
  simp only [redo, hcr, if_true, harith]
  exact ⟨trivial, trivial, rfl⟩

/-- Claim C10: initialize always notifies exactly once, with position 0,
count 1, and neither undo nor redo available. -/
theorem c10_initHistory_notifies (d : InitialData) :
    (initHistory d).notified = [⟨0, 1, false, false⟩] ∧
    getState (initHistory d).state = ⟨0, 1, false, false⟩ :=
  ⟨rfl, rfl⟩

/-- Concrete instance of c2_push_bounded: pushing a third snapshot into a
two-entry history with maxHistory 2 drops the oldest entry. -/
theorem c2_push_bounded_witness :
    (1 : Int) ≤ cfgSmall.maxHistory ∧
    (((pushSnapshot cfgSmall stTail blocksX (none, none)).state.history.length : Int)
        ≤ cfgSmall.maxHistory ∧
      (pushSnapshot cfgSmall stTail blocksX (none, none)).state.position
        = ((pushSnapshot cfgSmall stTail blocksX (none, none)).state.history.length : Int) - 1 ∧
      (pushSnapshot cfgSmall stTail blocksX (none, none)).state.history.getLast?
        = some (mkHistoryItem blocksX (none, none)) ∧
      (pushSnapshot cfgSmall stTail blocksX (none, none)).state.history.dropLast
        <:+ truncatedAtPosition stTail ∧
      ((pushMany cfgSmall (pushSnapshot cfgSmall stTail blocksX (none, none)).state
          [(blocksY, (none, none))]).history.length : Int) ≤ cfgSmall.maxHistory) :=
  ⟨by decide,
    c2_push_bounded cfgSmall stTail blocksX (none, none) [(blocksY, (none, none))] (by decide)⟩

/-- Concrete instance of c3_push_discards_redo_branch: pushing from the
head of a two-entry history discards the second entry. -/
theorem c3_push_discards_witness :
    stHead.position < (stHead.history.length : Int) - 1 ∧ (-1 : Int) ≤ stHead.position ∧
    (truncatedAtPosition stHead = stHead.history.take (stHead.position + 1).toNat ∧
      (pushSnapshot cfg0 stHead blocksX (none, none)).state.history.dropLast
        <:+ stHead.history.take (stHead.position + 1).toNat ∧
      (pushSnapshot cfg0 stHead blocksX (none, none)).state.history.getLast?
        = some (mkHistoryItem blocksX (none, none))) :=
  ⟨by decide, by decide,
    c3_push_discards_redo_branch cfg0 stHead blocksX (none, none) (by decide) (by decide)⟩

/-- Concrete instances of c8_invalid_navigation_noop: undo and redo are
no-ops on a one-snapshot state, and move the position with exactly one
notification when navigation is available. -/
theorem c8_invalid_navigation_witness :
    (canUndo stOne = false ∧ undo stOne = ⟨stOne, [], none⟩) ∧
    (canRedo stOne = false ∧ redo stOne = ⟨stOne, [], none⟩) ∧
    (canUndo stTail = true ∧
      (undo stTail).state = ⟨stTail.history, stTail.position - 1⟩ ∧
      (undo stTail).notified = [getState (undo stTail).state]) ∧
    (canRedo stHead = true ∧
      (redo stHead).state = ⟨stHead.history, stHead.position + 1⟩ ∧
      (redo stHead).notified = [getState (redo stHead).state]) :=
  ⟨⟨by decide, (c8_invalid_navigation_noop stOne).1 (by decide)⟩,
    ⟨by decide, (c8_invalid_navigation_noop stOne).2.1 (by decide)⟩,
    ⟨by decide, (c8_invalid_navigation_noop stTail).2.2.1 (by decide)⟩,
    ⟨by decide, (c8_invalid_navigation_noop stHead).2.2.2 (by decide)⟩⟩

/-- Concrete instance of c9_undo_redo_roundtrip on a two-entry history
sitting at the tail. -/
theorem c9_undo_redo_witness :
    canUndo stTail = true ∧ stTail.position < (stTail.history.length : Int) ∧
    ((redo (undo stTail).state).state = stTail ∧
      getState (redo (undo stTail).state).state = getState stTail ∧
      (redo (undo stTail).state).rendered
        = some (stTail.history.getD stTail.position.toNat default).blocks) :=
  ⟨by decide, by decide, c9_undo_redo_roundtrip stTail (by decide) (by decide)⟩

/-! ## Change detector -/

/-- Claim C4 (amended): hasChanged is false exactly when the candidate
equals — structurally, order-sensitively, including the key order of
object fields — the current snapshot's blocks, where an absent current
snapshot (empty history) is treated as the empty block list. -/
theorem c4_hasChanged_amended (st : ManagerState) (blocks : List Json) :
    hasChanged st blocks = false ↔ currentBlocks st = blocks := by
  unfold hasChanged
  rw [decide_eq_false_iff_not, not_not]
  constructor
  · intro h
    have h2 := serJson_inj h
    injection h2
  · intro h
    rw [h]

/-- Claim C4 (counterexample): with an empty history, hasChanged is false
on the empty candidate, although the claim requires true whenever the
history is empty; and a candidate equal to the current snapshot's blocks
up to object key order (the claim's structural identity, structEqListKO)
is reported changed, although the claim requires false there. -/
theorem c4_counterexample :
    stEmpty.history = [] ∧ hasChanged stEmpty [] = false ∧
    structEqListKO (currentBlocks stKeyOrder) candKeyOrder = true ∧
    hasChanged stKeyOrder candKeyOrder = true := by
  refine ⟨rfl, rfl, ?_, rfl⟩
  simp [currentBlocks, stKeyOrder, candKeyOrder, structEqListKO, structEqKO,
    structFieldsSubKO, structFieldLookupKO]

/-! ## Shortcut matcher -/

/-- The chain of early modifier returns in matchesShortcut equals the
exact-modifier-set conjunction. -/
theorem modifierChain (rc rm ra rs ec em ea es k : Bool) :
    (if rc && !ec then false
     else if rm && !em then false
     else if ra && !ea then false
     else if rs && !es then false
     else if !rc && ec then false
     else if !rm && em then false
     else if !ra && ea then false
     else if !rs && es then false
     else k)
    = ((rc == ec) && (rm == em) && (ra == ea) && (rs == es) && k) := by
  cases rc <;> cases rm <;> cases ra <;> cases rs <;>
    cases ec <;> cases em <;> cases ea <;> cases es <;> cases k <;> rfl

/-- Claim C7 (amended): matchesShortcut is the exact-modifier-set match
against the trimmed, lowercased final token, which must additionally be
non-empty; and in particular Ctrl+Shift+Z does not match CTRL+Z. -/
theorem c7_matchesShortcut_exact (ev : KeyboardEvent) (sc : ShortcutDefinition) :
    matchesShortcut ev sc = amendedMatchesShortcut ev sc ∧
    matchesShortcut ⟨"z", true, false, false, true⟩ (.strDef "CTRL+Z") = false := by
  refine ⟨?_, by decide⟩
  simp only [matchesShortcut, amendedMatchesShortcut]
  cases h : ((shortcutTokens sc).map (fun p => jsToLower (jsTrim p))).getLast? with
  | none => rfl
  | some key =>
    dsimp only
    by_cases hk : key = ""
    · subst hk
      simp
    · have hkb : (key == "") = false := beq_eq_false_iff_ne.mpr hk
      rw [if_neg hk, hkb, Bool.not_false, Bool.true_and]
      exact modifierChain _ _ _ _ _ _ _ _ _

/-- Claim C7 (counterexample): the shortcut string with an empty final
token fails in the code although the claim's iff makes it match an event
with the empty key and exactly Ctrl pressed; and the code trims token
whitespace, so a shortcut whose final token has trailing whitespace
matches although the claim's case-insensitive token comparison fails. -/
theorem c7_counterexample :
    matchesShortcut ⟨"", true, false, false, false⟩ (.strDef "CTRL+") = false ∧
    claimMatchesShortcut ⟨"", true, false, false, false⟩ (.strDef "CTRL+") = true ∧
    matchesShortcut ⟨"z", true, false, false, false⟩ (.strDef "CTRL+Z ") = true ∧
    claimMatchesShortcut ⟨"z", true, false, false, false⟩ (.strDef "CTRL+Z ") = false := by
  refine ⟨by decide, by decide, by decide, by decide⟩

/-! ## Debounce coalescer -/

/-- One coalescer step neither resolves the promise of a call it does
not own nor hands that call a timer or a body run. -/
theorem loopStep_not_resolved (cfg : ResolvedUndoConfig) (k : Nat) (s : LoopState)
    (e : LoopEvent) (hek : e ≠ .call k) (h1 : s.armed ≠ some k)
    (h2 : phaseOwner s.phase ≠ some k) (h3 : k ∉ s.resolved) :
    (loopStep cfg s e).armed ≠ some k ∧
    phaseOwner (loopStep cfg s e).phase ≠ some k ∧
    k ∉ (loopStep cfg s e).resolved := by
  cases e with
  | call id =>
    have hid : id ≠ k := fun h => hek (by rw [h])
    refine ⟨fun h => hid (Option.some.inj (by simpa [loopStep] using h)), ?_, ?_⟩
    · simpa [loopStep] using h2
    · simpa [loopStep] using h3
  | fire =>
    cases harm : s.armed with
    | none => simp only [loopStep, harm]; exact ⟨by simp [harm], h2, h3⟩
    | some j =>
      have hj : j ≠ k := fun h => h1 (by rw [harm, h])
      by_cases hsv : s.isSaving
      · simp only [loopStep, harm, hsv, if_true]
        refine ⟨by simp, h2, ?_⟩
        simp only [List.mem_cons, not_or]
        exact ⟨fun h => hj h.symm, h3⟩
      · simp only [loopStep, harm, hsv, if_false]
        refine ⟨by simp, ?_, h3⟩
        simp only [phaseOwner]
        exact fun h => hj (Option.some.inj h)
  | save blocks =>
    cases hph : s.phase with
    | idle => simp only [loopStep, hph]; exact ⟨h1, by simp [phaseOwner], h3⟩
    | inflight1 j =>
      have hj : j ≠ k := fun h => h2 (by rw [hph]; simp [phaseOwner, h])
      by_cases hp : s.pendingSave
      · simp only [loopStep, hph, hp, if_true]
        refine ⟨h1, ?_, h3⟩
        simp only [phaseOwner]
        exact fun h => hj (Option.some.inj h)
      · simp only [loopStep, hph]
        rw [if_neg hp]
        refine ⟨h1, by simp [phaseOwner], ?_⟩
        simp only [List.mem_cons, not_or]
        exact ⟨fun h => hj h.symm, h3⟩
    | inflight2 j =>
      have hj : j ≠ k := fun h => h2 (by rw [hph]; simp [phaseOwner, h])
      simp only [loopStep, hph]
      refine ⟨h1, by simp [phaseOwner], ?_⟩
      simp only [List.mem_cons, not_or]
      exact ⟨fun h => hj h.symm, h3⟩

/-- A call with no armed timer, no body run and an unresolved promise
never resolves along any continuation that does not reuse its id. -/
theorem loopRun_not_resolved (cfg : ResolvedUndoConfig) (k : Nat) :
    ∀ (evs : List LoopEvent) (s : LoopState),
      s.armed ≠ some k → phaseOwner s.phase ≠ some k → k ∉ s.resolved →
      LoopEvent.call k ∉ evs →
      k ∉ (loopRun cfg s evs).resolved := by
  intro evs
  induction evs with
  | nil =>
    intro s _ _ h3 _
    simpa [loopRun] using h3
  | cons e es ih =>
    intro s h1 h2 h3 hne
    have hek : e ≠ LoopEvent.call k := fun h => hne (h ▸ List.mem_cons_self _ _)
    obtain ⟨g1, g2, g3⟩ := loopStep_not_resolved cfg k s e hek h1 h2 h3
    exact ih _ g1 g2 g3 (fun h => hne (List.mem_cons_of_mem _ h))

/-- Claim C5 (amended): when the debounce timer fires during an
in-flight capture, no concurrent capture starts and only the pending
flag is recorded; when the in-flight capture is the first capture of its
body run, exactly one follow-up capture starts the moment it completes,
consuming the flag; but when it is the follow-up capture itself, its
completion starts nothing and a flag recorded during it waits for a
later timer. -/
theorem c5_pending_followup (cfg : ResolvedUndoConfig) (s : LoopState) (k : Nat)
    (blocks : List Json) :
    (s.armed = some k → s.isSaving = true →
      (loopStep cfg s .fire).captures = s.captures ∧
      (loopStep cfg s .fire).phase = s.phase ∧
      (loopStep cfg s .fire).pendingSave = true) ∧
    (s.phase = .inflight1 k → s.pendingSave = true →
      (loopStep cfg s (.save blocks)).captures = s.captures + 1 ∧
      (loopStep cfg s (.save blocks)).phase = .inflight2 k ∧
      (loopStep cfg s (.save blocks)).pendingSave = false) ∧
    (s.phase = .inflight2 k →
      (loopStep cfg s (.save blocks)).captures = s.captures ∧
      (loopStep cfg s (.save blocks)).phase = .idle) := by
  refine ⟨fun ha hs => ?_, fun hp hpe => ?_, fun hp => ?_⟩
  · simp [loopStep, ha, hs]
  · simp [loopStep, hp, hpe]
  · simp [loopStep, hp]

/-- Concrete instance of c5_pending_followup on the fixture trace. -/
theorem c5_pending_followup_witness :
    (sCall2.armed = some 2 ∧ sCall2.isSaving = true ∧
      (loopStep cfg0 sCall2 .fire).captures = sCall2.captures ∧
      (loopStep cfg0 sCall2 .fire).phase = sCall2.phase ∧
      (loopStep cfg0 sCall2 .fire).pendingSave = true) ∧
    (sPend.phase = .inflight1 1 ∧ sPend.pendingSave = true ∧
      (loopStep cfg0 sPend (.save blocksX)).captures = sPend.captures + 1 ∧
      (loopStep cfg0 sPend (.save blocksX)).phase = .inflight2 1 ∧
      (loopStep cfg0 sPend (.save blocksX)).pendingSave = false) ∧
    (sChain.phase = .inflight2 1 ∧
      (loopStep cfg0 sChain (.save blocksY)).captures = sChain.captures ∧
      (loopStep cfg0 sChain (.save blocksY)).phase = .idle) :=
  ⟨⟨by decide, by decide,
      (c5_pending_followup cfg0 sCall2 2 blocksX).1 (by decide) (by decide)⟩,
    ⟨by decide, by decide,
      (c5_pending_followup cfg0 sPend 1 blocksX).2.1 (by decide) (by decide)⟩,
    ⟨by decide,
      (c5_pending_followup cfg0 sChain 1 blocksY).2.2 (by decide)⟩⟩

/-- Claim C5 (counterexample): call 3's timer fires while the follow-up
capture of an earlier body run is in flight (sPend3); when that
in-flight capture completes (sDrop), no further capture attempt is
started — the captures count stays at 2, the body returns to idle, and
the recorded pending flag is left unserved, so the claim's "exactly one
more capture attempt immediately after the in-flight capture completes"
and its no-drop guarantee fail here. -/
theorem c5_counterexample :
    sPend3.isSaving = true ∧ sPend3.pendingSave = true ∧
    sPend3.phase = .inflight2 1 ∧ sPend3.captures = 2 ∧
    sDrop.phase = .idle ∧ sDrop.captures = 2 ∧ sDrop.pendingSave = true :=
  ⟨by decide, by decide, by decide, by decide, by decide, by decide, by decide⟩

/-- Claim C6 (amended): the promise of a handleEditorChange call
resolves exactly when the debounced body run its timer started returns:
immediately, before any capture work, when the timer fires during an
in-flight capture; after the first capture completes when no pending
flag was recorded; only after the follow-up capture completes when one
was; and the promise of a call whose timer was cleared by a later call
never resolves at all. -/
theorem c6_resolution_amended (cfg : ResolvedUndoConfig) (s : LoopState) (k : Nat)
    (blocks : List Json) (evs : List LoopEvent) :
    (s.armed = some k → s.isSaving = true →
      (loopStep cfg s .fire).resolved = k :: s.resolved) ∧
    (s.phase = .inflight1 k → s.pendingSave = false →
      (loopStep cfg s (.save blocks)).resolved = k :: s.resolved) ∧
    (s.phase = .inflight1 k → s.pendingSave = true →
      (loopStep cfg s (.save blocks)).resolved = s.resolved ∧
      (loopStep cfg s (.save blocks)).phase = .inflight2 k) ∧
    (s.phase = .inflight2 k →
      (loopStep cfg s (.save blocks)).resolved = k :: s.resolved) ∧
    (s.armed ≠ some k → phaseOwner s.phase ≠ some k → k ∉ s.resolved →
      LoopEvent.call k ∉ evs →
      k ∉ (loopRun cfg s evs).resolved) := by
  refine ⟨fun ha hs => ?_, fun hp hpe => ?_, fun hp hpe => ?_, fun hp => ?_,
    loopRun_not_resolved cfg k evs s⟩
  · simp [loopStep, ha, hs]
  · simp [loopStep, hp, hpe]
  · simp [loopStep, hp, hpe]
  · simp [loopStep, hp]

/-- Concrete instance of c6_resolution_amended on the fixture traces;
the last conjunct shows superseded call 1 still unresolved after the
later call's timer fired and its whole capture ran. -/
theorem c6_resolution_witness :
    (sCall2.armed = some 2 ∧ sCall2.isSaving = true ∧
      (loopStep cfg0 sCall2 .fire).resolved = 2 :: sCall2.resolved) ∧
    (sFire1.phase = .inflight1 1 ∧ sFire1.pendingSave = false ∧
      (loopStep cfg0 sFire1 (.save blocksX)).resolved = 1 :: sFire1.resolved) ∧
    (sPend.phase = .inflight1 1 ∧ sPend.pendingSave = true ∧
      (loopStep cfg0 sPend (.save blocksX)).resolved = sPend.resolved ∧
      (loopStep cfg0 sPend (.save blocksX)).phase = .inflight2 1) ∧
    (sChain.phase = .inflight2 1 ∧
      (loopStep cfg0 sChain (.save blocksY)).resolved = 1 :: sChain.resolved) ∧
    (sSuperseded.armed ≠ some 1 ∧ phaseOwner sSuperseded.phase ≠ some 1 ∧
      1 ∉ sSuperseded.resolved ∧
      1 ∉ (loopRun cfg0 sSuperseded [.fire, .save blocksX]).resolved) :=
  ⟨⟨by decide, by decide,
      (c6_resolution_amended cfg0 sCall2 2 blocksX []).1 (by decide) (by decide)⟩,
    ⟨by decide, by decide,
      (c6_resolution_amended cfg0 sFire1 1 blocksX []).2.1 (by decide) (by decide)⟩,
    ⟨by decide, by decide,
      (c6_resolution_amended cfg0 sPend 1 blocksX []).2.2.1 (by decide) (by decide)⟩,
    ⟨by decide,
      (c6_resolution_amended cfg0 sChain 1 blocksY []).2.2.2.1 (by decide)⟩,
    ⟨by decide, by decide, by decide,
      (c6_resolution_amended cfg0 sSuperseded 1 blocksX [.fire, .save blocksX]).2.2.2.2
        (by decide) (by decide) (by decide) (by simp)⟩⟩

/-- Claim C6 (counterexample): after call 2's timer fires during the
in-flight capture (sPend), call 2's promise has already resolved —
resolved = [2] — while the capture work its debounce window triggered
has not settled: the first capture is still in flight and the chained
pending capture it requested has not even started (captures = 1).  So
the claim that every call resolves only after its window, including the
chained pending capture, has fully settled fails here. -/
theorem c6_counterexample :
    sPend.resolved = [2] ∧ sPend.pendingSave = true ∧
    sPend.phase = .inflight1 1 ∧ sPend.captures = 1 :=
  ⟨by decide, by decide, by decide, by decide⟩

end EditorUndo
